import Mathlib

/-!
Shallow embedding of `src/app.py` (IITM-search-engine): the catalog filter
`fetch_course_catalog`, the course indexer `index_course`, and the module-level
query/search block, together with theorems settling the frozen claims.

Modelling conventions:
* A Python `dict.get` with a possibly absent key is an `Option`; an absent key
  is `none`.  A Python string value that is falsy (`""` or `None` where a
  string is expected) is modelled as the empty string, since the code only
  tests truthiness of such values.
* The Python `dict` built by insertion is an association list in insertion
  order, where assigning to an existing key updates its value in place
  (Python 3.7+ semantics), and `dict(sorted(d.items()))` is sorting the
  association list by key.
* Scrape results arrive as `Except Unit (List _)`: `Except.error ()` is a
  raised scraper exception, `Except.ok entries` a successful extraction.
* The sentence-embedding model is an arbitrary function `f : String → Vec`;
  the batch call `model.encode(documents)` is `encode f documents`.
-/

/-- Embedding vectors, with integer entries (any linearly ordered score type
supports the selection logic; integers keep every definition kernel-computable). -/
abbrev Vec : Type := List ℤ

/-- Python string truthiness: a string is truthy iff it is nonempty. -/
def truthy (s : String) : Bool := s ≠ ""

/-- `prefOf pat l` : `pat` is a prefix of `l` (over characters). -/
def prefOf : List Char → List Char → Bool
  | [], _ => true
  | _ :: _, [] => false
  | a :: as, b :: bs => a = b && prefOf as bs

/-- `inChars pat l` : `pat` occurs as a contiguous sublist of `l`
(Python's `pat in s` on strings). -/
def inChars (pat : List Char) : List Char → Bool
  | [] => prefOf pat []
  | l@(_ :: rest) => prefOf pat l || inChars pat rest

/-- The fixed denylist `junk_terms` of `fetch_course_catalog` (src/app.py:67). -/
def junk_terms : List String :=
  ["shorts", "testimonial", "webinar", "event", "hackathon", "promo", "teaser", "live session"]

/-- Python `title.lower()`, modelled character-wise with `Char.toLower`
(identical on the ASCII titles at issue). -/
def lowerChars (s : String) : List Char := s.toList.map Char.toLower

/-- `any(term in title.lower() for term in junk_terms)` (src/app.py:72):
some denylisted term occurs as a substring of the lower-cased title. -/
def containsJunk (title : String) : Bool :=
  junk_terms.any (fun term => inChars term.toList (lowerChars title))

/-- A raw scraped playlist entry: both fields may be absent
(`entry.get('title', 'Unknown')`, `entry.get('url')`). -/
structure RawEntry where
  title : Option String
  url : Option String
deriving DecidableEq, Repr

/-- `entry.get('title', 'Unknown')` (src/app.py:70): an absent title
defaults to `"Unknown"`. -/
def getTitle (e : RawEntry) : String := e.title.getD "Unknown"

/-- `entry.get('url')` (src/app.py:71), collapsed to a string whose
truthiness matches Python's (absent/falsy ↦ `""`). -/
def getUrl (e : RawEntry) : String := e.url.getD ""

/-- Python dict assignment `m[k] = v`: update the binding in place when the
key is present, otherwise append the new binding. -/
def dictInsert (m : List (String × String)) (k v : String) : List (String × String) :=
  match m with
  | [] => [(k, v)]
  | (k', v') :: rest => if k' = k then (k, v) :: rest else (k', v') :: dictInsert rest k v

/-- The guard of the filter loop (src/app.py:72):
`if title and url and not any(term in title.lower() for term in junk_terms)`. -/
def keepEntry (e : RawEntry) : Bool :=
  truthy (getTitle e) && truthy (getUrl e) && !containsJunk (getTitle e)

/-- The filter loop of `fetch_course_catalog` (src/app.py:66-73): fold the raw
entries into `clean_catalog`, inserting each entry that passes the guard. -/
def buildCatalog (raw : List RawEntry) : List (String × String) :=
  raw.foldl (fun m e => if keepEntry e then dictInsert m (getTitle e) (getUrl e) else m) []

/-- Boolean code-point lexicographic comparison of character lists: Python's
string `<=` as used by `sorted`. -/
def lexLe : List Char → List Char → Bool
  | [], _ => true
  | _ :: _, [] => false
  | a :: as, b :: bs => if a < b then true else if b < a then false else lexLe as bs

/-- Python string comparison `a <= b` (code-point lexicographic). -/
def strLe (a b : String) : Bool := lexLe a.toList b.toList

/-- `dict(sorted(clean_catalog.items()))` (src/app.py:75): sort the bindings
ascending by key.  (Python compares the `(title, url)` tuples, but the dict's
keys are unique, so the order is by title.) -/
def sortPairs (m : List (String × String)) : List (String × String) :=
  List.insertionSort (fun a b => strLe a.1 b.1 = true) m

/-- The `ydl_opts` dictionaries passed to the scraper. -/
structure YdlOpts where
  quiet : Bool
  extract_flat : Bool
  playlistend : Option Nat
  ignoreerrors : Bool
deriving DecidableEq, Repr

/-- `ydl_opts` of `fetch_course_catalog` (src/app.py:50-55), with
`'playlistend': 500`. -/
def catalog_ydl_opts : YdlOpts :=
  { quiet := true, extract_flat := true, playlistend := some 500, ignoreerrors := true }

/-- `ydl_opts` of `index_course` (src/app.py:85): no `playlistend` key. -/
def course_ydl_opts : YdlOpts :=
  { quiet := true, extract_flat := true, playlistend := none, ignoreerrors := true }

/-- Modelled from the spec: the external Scraper (§6) behind
`ydl.extract_info(..., download=False)` — it is the `yt_dlp` library, not code
of this repository.  It either raises (propagating the upstream failure) or
returns the scraped entries; a `playlistend` option truncates the listing to
its first that-many entries, per the option's documented semantics. -/
def extract_info (opts : YdlOpts) (upstream : Except Unit (List α)) : Except Unit (List α) :=
  upstream.map fun l =>
    match opts.playlistend with
    | some n => l.take n
    | none => l

/-- The pure catalog filter (src/app.py:66-75): filter the raw entries into
`clean_catalog` and sort the bindings by title. -/
def catalogFilter (raw : List RawEntry) : List (String × String) :=
  sortPairs (buildCatalog raw)

/-- `fetch_course_catalog` (src/app.py:48-75), as a function of the upstream
scrape outcome: a raised scrape exception is caught and yields `{}`
(src/app.py:62-63); otherwise the entries are filtered and sorted. -/
def fetch_course_catalog (upstream : Except Unit (List RawEntry)) : List (String × String) :=
  match extract_info catalog_ydl_opts upstream with
  | Except.error _ => []
  | Except.ok raw => catalogFilter raw

/-- A raw scraped video entry of a playlist: `title` and `id` keys may be
absent (`vid.get('title')`, `vid['id']`). -/
structure VideoEntry where
  title : Option String
  id : Option String
deriving DecidableEq, Repr

/-- The metadata dict `{"video_id": vid_id, "title": title}` (src/app.py:102). -/
structure Meta where
  video_id : String
  title : String
deriving DecidableEq, Repr, Inhabited

/-- The two literally-skipped titles (src/app.py:100). -/
def badTitles : List String := ["[Private video]", "[Deleted video]"]

/-- The filter loop of `index_course` (src/app.py:95-103), building
`documents`, `metadatas` and `ids` in lockstep.  An entry that is falsy
(`none`) or whose title is absent or falsy is skipped; for any other entry
`vid['id']` is read unconditionally — before the private/deleted check — so a
missing `id` key raises a `KeyError` (`Except.error ()`). -/
def indexLoop : List (Option VideoEntry) → Except Unit (List String × List Meta × List String)
  | [] => Except.ok ([], [], [])
  | none :: vs => indexLoop vs
  | some v :: vs =>
    match v.title with
    | none => indexLoop vs
    | some t =>
      if t = "" then indexLoop vs
      else
        match v.id with
        | none => Except.error ()
        | some i =>
          if t ∈ badTitles then indexLoop vs
          else (indexLoop vs).map fun r => (t :: r.1, ⟨i, t⟩ :: r.2.1, i :: r.2.2)

/-- The batch embedding call `model.encode(documents)` (src/app.py:106): one
call on the whole ordered list of retained titles, returning one vector per
title in the same order (Embedder contract, spec §6). -/
def encode (f : String → Vec) (documents : List String) : List Vec := documents.map f

/-- The in-memory content of the ChromaDB collection after
`collection.add(documents=..., embeddings=..., metadatas=..., ids=...)`
(src/app.py:107): four positionally-parallel lists. -/
structure Collection where
  documents : List String
  embeddings : List Vec
  metadatas : List Meta
  ids : List String
deriving DecidableEq, Repr

/-- `index_course` (src/app.py:77-109), as a function of the upstream scrape
outcome and the embedding model `f`.  Unlike `fetch_course_catalog`, the
`extract_info` call (src/app.py:88) is not wrapped in try/except, so a scrape
failure propagates; so does the `KeyError` of the filter loop.  On success it
returns `(len(documents), collection)`, or `(0, None)` when nothing
survived filtering. -/
def index_course (f : String → Vec) (upstream : Except Unit (List (Option VideoEntry))) :
    Except Unit (Nat × Option Collection) :=
  (extract_info course_ydl_opts upstream).bind fun videos =>
    (indexLoop videos).map fun r =>
      if r.1.isEmpty then (0, none)
      else (r.1.length,
            some { documents := r.1, embeddings := encode f r.1,
                   metadatas := r.2.1, ids := r.2.2 })

/-- Squared Euclidean distance, ChromaDB's default similarity space. -/
def sqDist (a b : Vec) : ℤ := ((a.zip b).map (fun p => (p.1 - p.2) * (p.1 - p.2))).sum

/-- Dot product: the cosine-style similarity score of the spec (§4.3) on
pre-normalized vectors, valued in `[-1, 1]`. -/
def dotScore (a b : Vec) : ℤ := ((a.zip b).map (fun p => p.1 * p.2)).sum

/-- First element of `p :: l` with minimal second component (ties keep the
earlier element). -/
def minPair (p : Nat × ℤ) : List (Nat × ℤ) → Nat × ℤ
  | [] => p
  | q :: rest => if q.2 < p.2 then minPair q rest else minPair p rest

/-- The `n` nearest entries of an indexed distance list, nearest first:
repeatedly extract the minimum. -/
def topN : Nat → List (Nat × ℤ) → List (Nat × ℤ)
  | 0, _ => []
  | _ + 1, [] => []
  | n + 1, q :: rest =>
    let m := minPair q rest
    m :: topN n ((q :: rest).erase m)

/-- Modelled from the spec: the Similarity/Index backend (§6) behind
`collection.query(query_embeddings=[query_vec], n_results=10)`
(src/app.py:150) — ChromaDB's query, not code of this repository.  Per the
backend contract it returns the ranked `n_results` nearest stored items:
here, the indices of the `n` stored embeddings nearest to the query vector
(squared-L2, ChromaDB's default), nearest first, each index at most once. -/
def collectionQuery (c : Collection) (qv : Vec) (n : Nat) : List (Nat × ℤ) :=
  topN n (c.embeddings.map (sqDist qv)).enum

/-- The module-level query/search block (src/app.py:147-166): embed the
query, ask the collection for the 10 nearest items, and render every returned
item — title and video id — with no filtering of any kind in between. -/
def searchResults (f : String → Vec) (c : Collection) (query : String) : List (String × String) :=
  (collectionQuery c (f query) 10).map fun p =>
    (c.documents.getD p.1 "", (c.metadatas.getD p.1 default).video_id)

/-- The retained `(title, url)` pairs of the catalog filter, in input order
(specification-side view of the filter loop, used to state the claims). -/
def retainedPairs (raw : List RawEntry) : List (String × String) :=
  raw.filterMap fun e => if keepEntry e then some (getTitle e, getUrl e) else none

/-- The retained `(title, id)` pairs of the course indexer, in input order
(specification-side view of the filter loop, used to state the claims). -/
def retainedVids (videos : List (Option VideoEntry)) : List (String × String) :=
  videos.filterMap fun ov => ov.bind fun v => v.title.bind fun t =>
    if t ≠ "" ∧ t ∉ badTitles then v.id.map fun i => (t, i) else none

/-- The value of the last assignment to key `t` when the pairs are assigned
in order (specification-side "last write wins"). -/
def lastAssign : List (String × String) → String → Option String
  | [], _ => none
  | p :: ps, t =>
    match lastAssign ps t with
    | some u => some u
    | none => if p.1 = t then some p.2 else none

/-- Lookup in an association list (the unique binding, when keys are nodup). -/
def dictLookup (m : List (String × String)) (k : String) : Option String :=
  (m.find? (fun p => p.1 == k)).map Prod.snd

/-! ### Association-list lemmas for the catalog dictionary -/

theorem mem_dictInsert (m : List (String × String)) (k v : String) (p : String × String)
    (hp : p ∈ dictInsert m k v) : p ∈ m ∨ p = (k, v) := by
  induction m with
  | nil =>
    simp only [dictInsert, List.mem_singleton] at hp
    exact Or.inr hp
  | cons q rest ih =>
    simp only [dictInsert] at hp
    by_cases hk : q.1 = k
    · rw [if_pos hk] at hp
      rcases List.mem_cons.mp hp with h | h
      · exact Or.inr h
      · exact Or.inl (List.mem_cons_of_mem _ h)
    · rw [if_neg hk] at hp
      rcases List.mem_cons.mp hp with h | h
      · exact Or.inl (h ▸ List.mem_cons_self _ _)
      · rcases ih h with h' | h'
        · exact Or.inl (List.mem_cons_of_mem _ h')
        · exact Or.inr h'

theorem mem_keys_dictInsert (m : List (String × String)) (k v : String) (a : String)
    (ha : a ∈ (dictInsert m k v).map Prod.fst) : a ∈ m.map Prod.fst ∨ a = k := by
  rcases List.mem_map.mp ha with ⟨p, hp, rfl⟩
  rcases mem_dictInsert m k v p hp with h | h
  · exact Or.inl (List.mem_map_of_mem _ h)
  · exact Or.inr (by rw [h])

theorem nodup_keys_dictInsert (m : List (String × String)) (k v : String)
    (h : (m.map Prod.fst).Nodup) : ((dictInsert m k v).map Prod.fst).Nodup := by
  induction m with
  | nil => simp [dictInsert]
  | cons q rest ih =>
    simp only [List.map_cons, List.nodup_cons] at h
    simp only [dictInsert]
    by_cases hk : q.1 = k
    · rw [if_pos hk]
      simp only [List.map_cons, List.nodup_cons]
      exact ⟨hk ▸ h.1, h.2⟩
    · rw [if_neg hk]
      simp only [List.map_cons, List.nodup_cons]
      refine ⟨fun hmem => ?_, ih h.2⟩
      rcases mem_keys_dictInsert rest k v q.1 hmem with h' | h'
      · exact h.1 h'
      · exact hk h'

theorem dictInsert_of_not_mem (m : List (String × String)) (k v : String)
    (h : k ∉ m.map Prod.fst) : dictInsert m k v = m ++ [(k, v)] := by
  induction m with
  | nil => simp [dictInsert]
  | cons q rest ih =>
    simp only [List.map_cons, List.mem_cons, not_or] at h
    simp only [dictInsert]
    rw [if_neg (fun hq => h.1 hq.symm), ih h.2]
    rfl

theorem dictLookup_cons (q : String × String) (rest : List (String × String)) (k : String) :
    dictLookup (q :: rest) k = if q.1 = k then some q.2 else dictLookup rest k := by
  by_cases hk : q.1 = k
  · simp [dictLookup, List.find?, hk]
  · have hb : (q.1 == k) = false := beq_false_of_ne hk
    simp [dictLookup, List.find?, hb, hk]

theorem dictLookup_dictInsert_self (m : List (String × String)) (k v : String) :
    dictLookup (dictInsert m k v) k = some v := by
  induction m with
  | nil => simp [dictInsert, dictLookup, List.find?]
  | cons q rest ih =>
    simp only [dictInsert]
    by_cases hk : q.1 = k
    · rw [if_pos hk, dictLookup_cons]
      simp
    · rw [if_neg hk, dictLookup_cons, if_neg hk]
      exact ih

theorem dictLookup_dictInsert_ne (m : List (String × String)) (k v k' : String)
    (h : k' ≠ k) : dictLookup (dictInsert m k v) k' = dictLookup m k' := by
  have hkk : k ≠ k' := fun hh => h hh.symm
  induction m with
  | nil =>
    have hb : (k == k') = false := beq_false_of_ne hkk
    simp [dictInsert, dictLookup, List.find?, hb]
  | cons q rest ih =>
    simp only [dictInsert]
    by_cases hk : q.1 = k
    · rw [if_pos hk, dictLookup_cons, dictLookup_cons, if_neg hkk, if_neg (hk ▸ hkk)]
    · rw [if_neg hk, dictLookup_cons, dictLookup_cons]
      by_cases hq : q.1 = k'
      · rw [if_pos hq, if_pos hq]
      · rw [if_neg hq, if_neg hq]
        exact ih

theorem dictLookup_eq_some_mem (m : List (String × String)) (k v : String)
    (h : dictLookup m k = some v) : (k, v) ∈ m := by
  induction m with
  | nil => simp [dictLookup, List.find?] at h
  | cons q rest ih =>
    obtain ⟨a, b⟩ := q
    by_cases hq : a = k
    · subst hq
      simp [dictLookup, List.find?] at h
      subst h
      exact List.mem_cons_self _ _
    · have hb : (a == k) = false := beq_false_of_ne hq
      simp only [dictLookup, List.find?, hb] at h
      exact List.mem_cons_of_mem _ (ih h)

theorem mem_dictLookup_of_nodup (m : List (String × String)) (k v : String)
    (hnd : (m.map Prod.fst).Nodup) (h : (k, v) ∈ m) : dictLookup m k = some v := by
  induction m with
  | nil => simp at h
  | cons q rest ih =>
    simp only [List.map_cons, List.nodup_cons] at hnd
    rw [dictLookup_cons]
    rcases List.mem_cons.mp h with h' | h'
    · rw [← h']
      simp
    · by_cases hq : q.1 = k
      · exact absurd (hq ▸ List.mem_map_of_mem Prod.fst h') hnd.1
      · rw [if_neg hq]
        exact ih hnd.2 h'

/-- Folding `dictInsert` over a pair list, starting from `acc`. -/
def insertAll (acc : List (String × String)) (ps : List (String × String)) :
    List (String × String) :=
  ps.foldl (fun m p => dictInsert m p.1 p.2) acc

theorem foldl_catalog_eq_insertAll (raw : List RawEntry) :
    ∀ acc, raw.foldl
        (fun m e => if keepEntry e then dictInsert m (getTitle e) (getUrl e) else m) acc =
      insertAll acc (retainedPairs raw) := by
  induction raw with
  | nil => intro acc; rfl
  | cons e rest ih =>
    intro acc
    simp only [List.foldl_cons, retainedPairs, List.filterMap_cons]
    by_cases hk : keepEntry e
    · rw [if_pos hk, if_pos hk]
      exact ih (dictInsert acc (getTitle e) (getUrl e))
    · rw [if_neg hk, if_neg hk]
      exact ih acc

theorem buildCatalog_eq_insertAll (raw : List RawEntry) :
    buildCatalog raw = insertAll [] (retainedPairs raw) :=
  foldl_catalog_eq_insertAll raw []

theorem insertAll_lookup (ps : List (String × String)) :
    ∀ acc k, dictLookup (insertAll acc ps) k = (lastAssign ps k <|> dictLookup acc k) := by
  induction ps with
  | nil => intro acc k; simp [insertAll, lastAssign]
  | cons p rest ih =>
    intro acc k
    have step : insertAll acc (p :: rest) = insertAll (dictInsert acc p.1 p.2) rest := rfl
    rw [step, ih]
    simp only [lastAssign]
    cases hla : lastAssign rest k with
    | some u => simp
    | none =>
      by_cases hk : p.1 = k
      · simp only [if_pos hk, Option.none_orElse, Option.some_orElse]
        rw [← hk, dictLookup_dictInsert_self]
      · simp only [if_neg hk, Option.none_orElse]
        exact dictLookup_dictInsert_ne acc p.1 p.2 k (fun hh => hk hh.symm)

theorem insertAll_keys_nodup (ps : List (String × String)) :
    ∀ acc, (acc.map Prod.fst).Nodup → ((insertAll acc ps).map Prod.fst).Nodup := by
  induction ps with
  | nil => intro acc h; exact h
  | cons p rest ih =>
    intro acc h
    exact ih (dictInsert acc p.1 p.2) (nodup_keys_dictInsert acc p.1 p.2 h)

theorem buildCatalog_keys_nodup (raw : List RawEntry) :
    ((buildCatalog raw).map Prod.fst).Nodup := by
  rw [buildCatalog_eq_insertAll]
  exact insertAll_keys_nodup (retainedPairs raw) [] (by simp)

theorem insertAll_of_nodup (ps : List (String × String)) :
    ∀ acc, (((acc ++ ps).map Prod.fst)).Nodup → insertAll acc ps = acc ++ ps := by
  induction ps with
  | nil => intro acc _; simp [insertAll]
  | cons p rest ih =>
    intro acc h
    have hnot : p.1 ∉ acc.map Prod.fst := by
      intro hmem
      rcases List.mem_map.mp hmem with ⟨q, hq, hq1⟩
      have hqm : q.1 ∈ (acc ++ p :: rest).map Prod.fst := by
        exact List.mem_map_of_mem _ (List.mem_append_left _ hq)
      have hpm : (p.1 : String) ∈ ((p :: rest).map Prod.fst) := by simp
      rw [List.map_append] at h
      rcases List.disjoint_of_nodup_append h (List.mem_map_of_mem _ hq) with hd
      exact hd (by simp [hq1])
    have step : insertAll acc (p :: rest) = insertAll (dictInsert acc p.1 p.2) rest := rfl
    rw [step, dictInsert_of_not_mem acc p.1 p.2 hnot, ih (acc ++ [p])
      (by simpa using h), List.append_assoc]
    rfl

theorem lastAssign_mem (ps : List (String × String)) (t u : String)
    (h : lastAssign ps t = some u) : (t, u) ∈ ps := by
  induction ps with
  | nil => simp [lastAssign] at h
  | cons p rest ih =>
    simp only [lastAssign] at h
    cases hla : lastAssign rest t with
    | some w =>
      rw [hla] at h
      simp only [] at h
      have hw : w = u := by simpa using h
      rw [hw] at hla
      exact List.mem_cons_of_mem _ (ih hla)
    | none =>
      rw [hla] at h
      by_cases hk : p.1 = t
      · rw [if_pos hk] at h
        obtain ⟨a, b⟩ := p
        obtain rfl : a = t := hk
        obtain rfl : b = u := Option.some_injective _ h
        exact List.mem_cons_self _ _
      · rw [if_neg hk] at h
        exact absurd h (by simp)

theorem lastAssign_isSome_of_mem (ps : List (String × String)) (t u : String)
    (h : (t, u) ∈ ps) : (lastAssign ps t).isSome := by
  induction ps with
  | nil => simp at h
  | cons p rest ih =>
    simp only [lastAssign]
    cases hla : lastAssign rest t with
    | some w => simp
    | none =>
      rcases List.mem_cons.mp h with h' | h'
      · rw [← h']
        simp
      · have := ih h'
        rw [hla] at this
        simp at this

theorem mem_buildCatalog_iff (raw : List RawEntry) (t u : String) :
    (t, u) ∈ buildCatalog raw ↔ lastAssign (retainedPairs raw) t = some u := by
  constructor
  · intro h
    have hl := mem_dictLookup_of_nodup (buildCatalog raw) t u (buildCatalog_keys_nodup raw) h
    rw [buildCatalog_eq_insertAll, insertAll_lookup] at hl
    cases hla : lastAssign (retainedPairs raw) t with
    | some w =>
      rw [hla] at hl
      simpa using hl
    | none =>
      rw [hla] at hl
      simp [dictLookup, List.find?] at hl
  · intro h
    have hl : dictLookup (buildCatalog raw) t = some u := by
      rw [buildCatalog_eq_insertAll, insertAll_lookup, h]
      rfl
    exact dictLookup_eq_some_mem _ _ _ hl

/-! ### Sorting lemmas for the catalog -/

theorem lexLe_total (a : List Char) : ∀ b, lexLe a b = true ∨ lexLe b a = true := by
  induction a with
  | nil => intro b; left; rfl
  | cons x xs ih =>
    intro b
    cases b with
    | nil => right; rfl
    | cons y ys =>
      by_cases hxy : x < y
      · left; simp [lexLe, hxy]
      · by_cases hyx : y < x
        · right; simp [lexLe, hyx]
        · rcases ih ys with h | h
          · left; simp [lexLe, hxy, hyx, h]
          · right; simp [lexLe, hxy, hyx, h]

theorem lexLe_trans (a : List Char) :
    ∀ b c, lexLe a b = true → lexLe b c = true → lexLe a c = true := by
  induction a with
  | nil => intro b c _ _; rfl
  | cons x xs ih =>
    intro b c h1 h2
    cases b with
    | nil => simp [lexLe] at h1
    | cons y ys =>
      cases c with
      | nil => simp [lexLe] at h2
      | cons z zs =>
        simp only [lexLe] at h1 h2 ⊢
        by_cases hxy : x < y
        · by_cases hyz : y < z
          · simp [lt_trans hxy hyz]
          · by_cases hzy : z < y
            · rw [if_neg hyz, if_pos hzy] at h2
              cases h2
            · have hyz' : y = z := le_antisymm (not_lt.mp hzy) (not_lt.mp hyz)
              simp [hyz' ▸ hxy]
        · by_cases hyx : y < x
          · rw [if_neg hxy, if_pos hyx] at h1
            cases h1
          · have hxy' : x = y := le_antisymm (not_lt.mp hyx) (not_lt.mp hxy)
            subst hxy'
            rw [if_neg (lt_irrefl x), if_neg (lt_irrefl x)] at h1
            by_cases hxz : x < z
            · simp [hxz]
            · by_cases hzx : z < x
              · rw [if_neg hxz, if_pos hzx] at h2
                cases h2
              · rw [if_neg hxz, if_neg hzx] at h2 ⊢
                exact ih ys zs h1 h2

theorem lexLe_antisymm (a : List Char) :
    ∀ b, lexLe a b = true → lexLe b a = true → a = b := by
  induction a with
  | nil =>
    intro b _ h2
    cases b with
    | nil => rfl
    | cons y ys => simp [lexLe] at h2
  | cons x xs ih =>
    intro b h1 h2
    cases b with
    | nil => simp [lexLe] at h1
    | cons y ys =>
      simp only [lexLe] at h1 h2
      by_cases hxy : x < y
      · rw [if_neg (lt_asymm hxy), if_pos hxy] at h2
        cases h2
      · by_cases hyx : y < x
        · rw [if_neg hxy, if_pos hyx] at h1
          cases h1
        · have hxy' : x = y := le_antisymm (not_lt.mp hyx) (not_lt.mp hxy)
          subst hxy'
          rw [if_neg (lt_irrefl x), if_neg (lt_irrefl x)] at h1 h2
          rw [ih ys h1 h2]

theorem strLe_antisymm (a b : String) (h1 : strLe a b = true) (h2 : strLe b a = true) :
    a = b := by
  have h := lexLe_antisymm a.toList b.toList h1 h2
  cases a
  cases b
  exact congrArg String.mk h

instance : IsTotal (String × String) (fun a b => strLe a.1 b.1 = true) :=
  ⟨fun a b => lexLe_total _ _⟩

instance : IsTrans (String × String) (fun a b => strLe a.1 b.1 = true) :=
  ⟨fun _ _ _ h h' => lexLe_trans _ _ _ h h'⟩

instance : IsAntisymm (String × String) (fun a b => strLe a.1 b.1 = true ∧ a.1 ≠ b.1) :=
  ⟨fun _ _ h h' => absurd (strLe_antisymm _ _ h.1 h'.1) h.2⟩

theorem sortPairs_sorted (m : List (String × String)) :
    List.Sorted (fun a b => strLe a.1 b.1 = true) (sortPairs m) :=
  List.sorted_insertionSort _ m

theorem sortPairs_perm (m : List (String × String)) : (sortPairs m).Perm m :=
  List.perm_insertionSort _ m

theorem catalogFilter_sorted (raw : List RawEntry) :
    List.Sorted (fun a b => strLe a.1 b.1 = true) (catalogFilter raw) :=
  sortPairs_sorted _

theorem catalogFilter_perm_build (raw : List RawEntry) :
    (catalogFilter raw).Perm (buildCatalog raw) :=
  sortPairs_perm _

theorem catalogFilter_keys_nodup (raw : List RawEntry) :
    ((catalogFilter raw).map Prod.fst).Nodup :=
  (((catalogFilter_perm_build raw).map Prod.fst).nodup_iff).mpr (buildCatalog_keys_nodup raw)

theorem sorted_strict_of_nodup_keys (m : List (String × String))
    (hs : List.Sorted (fun a b => strLe a.1 b.1 = true) m) (hn : (m.map Prod.fst).Nodup) :
    List.Pairwise (fun a b : String × String => strLe a.1 b.1 = true ∧ a.1 ≠ b.1) m := by
  have hne : List.Pairwise (fun a b : String × String => a.1 ≠ b.1) m :=
    (List.pairwise_map).mp hn
  exact hs.and hne

theorem catalogFilter_perm_invariant (raw1 raw2 : List RawEntry) (hperm : raw1.Perm raw2)
    (hnd : ((retainedPairs raw1).map Prod.fst).Nodup) :
    catalogFilter raw1 = catalogFilter raw2 := by
  have hr : (retainedPairs raw1).Perm (retainedPairs raw2) := hperm.filterMap _
  have hnd2 : ((retainedPairs raw2).map Prod.fst).Nodup := ((hr.map Prod.fst).nodup_iff).mp hnd
  have hb1 : buildCatalog raw1 = retainedPairs raw1 := by
    rw [buildCatalog_eq_insertAll]
    exact insertAll_of_nodup _ [] (by simpa using hnd)
  have hb2 : buildCatalog raw2 = retainedPairs raw2 := by
    rw [buildCatalog_eq_insertAll]
    exact insertAll_of_nodup _ [] (by simpa using hnd2)
  have h1 : (catalogFilter raw1).Perm (retainedPairs raw1) := by
    rw [← hb1]; exact catalogFilter_perm_build raw1
  have h2 : (catalogFilter raw2).Perm (retainedPairs raw2) := by
    rw [← hb2]; exact catalogFilter_perm_build raw2
  have hp : (catalogFilter raw1).Perm (catalogFilter raw2) := (h1.trans hr).trans h2.symm
  exact List.eq_of_perm_of_sorted hp
    (sorted_strict_of_nodup_keys _ (catalogFilter_sorted raw1) (catalogFilter_keys_nodup raw1))
    (sorted_strict_of_nodup_keys _ (catalogFilter_sorted raw2) (catalogFilter_keys_nodup raw2))

theorem mem_retainedPairs_prop (raw : List RawEntry) (p : String × String)
    (hp : p ∈ retainedPairs raw) :
    truthy p.1 = true ∧ truthy p.2 = true ∧ containsJunk p.1 = false := by
  rcases List.mem_filterMap.mp hp with ⟨e, _, hee⟩
  by_cases hk : keepEntry e
  · rw [if_pos hk] at hee
    obtain rfl : (getTitle e, getUrl e) = p := Option.some_injective _ hee
    simp only [keepEntry, Bool.and_eq_true, Bool.not_eq_true'] at hk
    exact ⟨hk.1.1, hk.1.2, hk.2⟩
  · rw [if_neg hk] at hee
    cases hee

theorem mem_catalogFilter_prop (raw : List RawEntry) (p : String × String)
    (hp : p ∈ catalogFilter raw) :
    truthy p.1 = true ∧ truthy p.2 = true ∧ containsJunk p.1 = false := by
  have hb : p ∈ buildCatalog raw := ((catalogFilter_perm_build raw).mem_iff).mp hp
  obtain ⟨t, u⟩ := p
  have hla := (mem_buildCatalog_iff raw t u).mp hb
  exact mem_retainedPairs_prop raw (t, u) (lastAssign_mem _ _ _ hla)

/-! ### Lemmas about the course indexer -/

theorem retainedVids_cons_none (vs : List (Option VideoEntry)) :
    retainedVids (none :: vs) = retainedVids vs := rfl

theorem indexLoop_ok (videos : List (Option VideoEntry)) :
    ∀ r, indexLoop videos = Except.ok r →
      r.1 = (retainedVids videos).map Prod.fst ∧
      r.2.1 = (retainedVids videos).map (fun p => Meta.mk p.2 p.1) ∧
      r.2.2 = (retainedVids videos).map Prod.snd := by
  induction videos with
  | nil =>
    intro r h
    obtain rfl : (⟨[], [], []⟩ : List String × List Meta × List String) = r :=
      Except.ok.inj h
    simp [retainedVids]
  | cons ov vs ih =>
    intro r h
    cases ov with
    | none =>
      rw [retainedVids_cons_none]
      exact ih r h
    | some v =>
      cases ht : v.title with
      | none =>
        simp only [indexLoop, ht] at h
        have hr : retainedVids (some v :: vs) = retainedVids vs := by
          simp [retainedVids, List.filterMap_cons, ht]
        rw [hr]
        exact ih r h
      | some t =>
        by_cases hte : t = ""
        · simp only [indexLoop, ht, if_pos hte] at h
          have hr : retainedVids (some v :: vs) = retainedVids vs := by
            simp [retainedVids, List.filterMap_cons, ht, hte]
          rw [hr]
          exact ih r h
        · cases hid : v.id with
          | none =>
            simp only [indexLoop, ht, if_neg hte, hid] at h
            cases h
          | some i =>
            by_cases hbad : t ∈ badTitles
            · simp only [indexLoop, ht, if_neg hte, hid, if_pos hbad] at h
              have hr : retainedVids (some v :: vs) = retainedVids vs := by
                simp [retainedVids, List.filterMap_cons, ht, hte, hbad]
              rw [hr]
              exact ih r h
            · simp only [indexLoop, ht, if_neg hte, hid, if_neg hbad] at h
              cases hvs : indexLoop vs with
              | error e =>
                rw [hvs] at h
                cases h
              | ok r' =>
                rw [hvs] at h
                simp only [Except.map] at h
                obtain rfl := Except.ok.inj h
                have hr : retainedVids (some v :: vs) = (t, i) :: retainedVids vs := by
                  simp [retainedVids, List.filterMap_cons, ht, hte, hbad, hid]
                rcases ih r' hvs with ⟨h1, h2, h3⟩
                refine ⟨?_, ?_, ?_⟩
                · rw [hr, List.map_cons, ← h1]
                · rw [hr, List.map_cons, ← h2]
                · rw [hr, List.map_cons, ← h3]

theorem indexLoop_error (videos : List (Option VideoEntry))
    (h : ∃ v, (some v) ∈ videos ∧ ∃ t, v.title = some t ∧ t ≠ "" ∧ t ∉ badTitles ∧
      v.id = none) :
    indexLoop videos = Except.error () := by
  induction videos with
  | nil =>
    rcases h with ⟨v, hv, _⟩
    simp at hv
  | cons ov vs ih =>
    rcases h with ⟨v, hv, t, ht, hne, hbad, hid⟩
    rcases List.mem_cons.mp hv with heq | hmem
    · rw [← heq]
      simp only [indexLoop, ht, if_neg hne, hid]
    · have htail : indexLoop vs = Except.error () := ih ⟨v, hmem, t, ht, hne, hbad, hid⟩
      cases ov with
      | none =>
        simp only [indexLoop]
        exact htail
      | some w =>
        cases htw : w.title with
        | none => simp only [indexLoop, htw]; exact htail
        | some s =>
          by_cases hs : s = ""
          · simp only [indexLoop, htw, if_pos hs]
            exact htail
          · cases hiw : w.id with
            | none => simp only [indexLoop, htw, if_neg hs, hiw]
            | some j =>
              by_cases hbw : s ∈ badTitles
              · simp only [indexLoop, htw, if_neg hs, hiw, if_pos hbw]
                exact htail
              · simp only [indexLoop, htw, if_neg hs, hiw, if_neg hbw, htail]
                rfl

theorem retained_titles_sublist (videos : List (Option VideoEntry)) :
    ((retainedVids videos).map Prod.fst).Sublist
      (videos.filterMap (fun ov => ov.bind VideoEntry.title)) := by
  induction videos with
  | nil => simp [retainedVids]
  | cons ov vs ih =>
    cases ov with
    | none =>
      rw [retainedVids_cons_none]
      simpa [List.filterMap_cons] using ih
    | some v =>
      cases ht : v.title with
      | none =>
        have hr : retainedVids (some v :: vs) = retainedVids vs := by
          simp [retainedVids, List.filterMap_cons, ht]
        rw [hr]
        simpa [List.filterMap_cons, ht] using ih
      | some t =>
        have hrhs : (some v :: vs).filterMap (fun ov => ov.bind VideoEntry.title) =
            t :: vs.filterMap (fun ov => ov.bind VideoEntry.title) := by
          simp [List.filterMap_cons, ht]
        rw [hrhs]
        by_cases hte : t = ""
        · have hr : retainedVids (some v :: vs) = retainedVids vs := by
            simp [retainedVids, List.filterMap_cons, ht, hte]
          rw [hr]
          exact ih.cons t
        · by_cases hbad : t ∈ badTitles
          · have hr : retainedVids (some v :: vs) = retainedVids vs := by
              simp [retainedVids, List.filterMap_cons, ht, hte, hbad]
            rw [hr]
            exact ih.cons t
          · cases hid : v.id with
            | none =>
              have hr : retainedVids (some v :: vs) = retainedVids vs := by
                simp [retainedVids, List.filterMap_cons, ht, hte, hbad, hid]
              rw [hr]
              exact ih.cons t
            | some i =>
              have hr : retainedVids (some v :: vs) = (t, i) :: retainedVids vs := by
                simp [retainedVids, List.filterMap_cons, ht, hte, hbad, hid]
              rw [hr, List.map_cons]
              exact ih.cons₂ t


/-! ### Lemmas about the top-K selection -/

theorem minPair_mem (p : Nat × ℤ) (l : List (Nat × ℤ)) : minPair p l ∈ p :: l := by
  induction l generalizing p with
  | nil => simp [minPair]
  | cons q rest ih =>
    simp only [minPair]
    by_cases hq : q.2 < p.2
    · rw [if_pos hq]
      exact List.mem_cons_of_mem _ (ih q)
    · rw [if_neg hq]
      rcases List.mem_cons.mp (ih p) with h | h
      · rw [h]
        exact List.mem_cons_self _ _
      · exact List.mem_cons_of_mem _ (List.mem_cons_of_mem _ h)

theorem topN_length (n : Nat) (l : List (Nat × ℤ)) : (topN n l).length = min n l.length := by
  induction n generalizing l with
  | zero => simp [topN]
  | succ n ih =>
    cases l with
    | nil => simp [topN]
    | cons q rest =>
      simp only [topN, List.length_cons]
      rw [ih, List.length_erase_of_mem (minPair_mem q rest)]
      simp [Nat.succ_min_succ]

theorem topN_subset (n : Nat) (l : List (Nat × ℤ)) (x : Nat × ℤ)
    (hx : x ∈ topN n l) : x ∈ l := by
  induction n generalizing l with
  | zero => simp [topN] at hx
  | succ n ih =>
    cases l with
    | nil => simp [topN] at hx
    | cons q rest =>
      simp only [topN] at hx
      rcases List.mem_cons.mp hx with h | h
      · exact h ▸ minPair_mem q rest
      · exact List.erase_subset _ _ (ih _ h)

theorem topN_nodup (n : Nat) (l : List (Nat × ℤ)) (h : l.Nodup) : (topN n l).Nodup := by
  induction n generalizing l with
  | zero => simp [topN]
  | succ n ih =>
    cases l with
    | nil => simp [topN]
    | cons q rest =>
      simp only [topN]
      have hm : minPair q rest ∈ q :: rest := minPair_mem q rest
      have herase : ((q :: rest).erase (minPair q rest)).Nodup := h.erase _
      refine List.nodup_cons.mpr ⟨fun hc => ?_, ih _ herase⟩
      have hmem := topN_subset n _ _ hc
      exact (h.mem_erase_iff.mp hmem).1 rfl

theorem mem_enum_fst_lt (l : List ℤ) (p : Nat × ℤ) (hp : p ∈ l.enum) : p.1 < l.length := by
  have h : p.1 ∈ l.enum.map Prod.fst := List.mem_map_of_mem _ hp
  rw [List.enum_map_fst] at h
  exact List.mem_range.mp h

theorem enum_keys_nodup (l : List ℤ) : (l.enum.map Prod.fst).Nodup := by
  rw [List.enum_map_fst]
  exact List.nodup_range _

theorem enum_nodup (l : List ℤ) : l.enum.Nodup :=
  (enum_keys_nodup l).of_map

theorem searchResults_length (f : String → Vec) (c : Collection) (q : String) :
    (searchResults f c q).length = min 10 c.embeddings.length := by
  simp only [searchResults, collectionQuery, List.length_map]
  rw [topN_length]
  simp

theorem collectionQuery_fst_lt (c : Collection) (qv : Vec) (n : Nat) (p : Nat × ℤ)
    (hp : p ∈ collectionQuery c qv n) : p.1 < c.embeddings.length := by
  have h := topN_subset n _ _ hp
  have h2 := mem_enum_fst_lt _ _ h
  simpa using h2

theorem collectionQuery_fst_pairwise (c : Collection) (qv : Vec) (n : Nat) :
    List.Pairwise (fun a b : Nat × ℤ => a.1 ≠ b.1) (collectionQuery c qv n) := by
  have hnd : (collectionQuery c qv n).Nodup :=
    topN_nodup n _ (enum_nodup (c.embeddings.map (sqDist qv)))
  refine hnd.imp_of_mem ?_
  intro a b ha hb hne hfst
  exact hne (List.inj_on_of_nodup_map (enum_keys_nodup (c.embeddings.map (sqDist qv)))
    (topN_subset n _ _ ha) (topN_subset n _ _ hb) hfst)

theorem mem_retainedVids_prop (videos : List (Option VideoEntry)) (p : String × String)
    (hp : p ∈ retainedVids videos) : p.1 ≠ "" ∧ p.1 ∉ badTitles := by
  rcases List.mem_filterMap.mp hp with ⟨ov, _, hov⟩
  cases ov with
  | none => simp at hov
  | some v =>
    have hov1 : (v.title.bind fun t =>
        if t ≠ "" ∧ t ∉ badTitles then v.id.map fun i => (t, i) else none) = some p := hov
    cases ht : v.title with
    | none =>
      rw [ht] at hov1
      simp at hov1
    | some t =>
      rw [ht] at hov1
      have hov2 : (if t ≠ "" ∧ t ∉ badTitles then v.id.map fun i => (t, i) else none) =
          some p := hov1
      by_cases hc : t ≠ "" ∧ t ∉ badTitles
      · rw [if_pos hc] at hov2
        cases hid : v.id with
        | none =>
          rw [hid] at hov2
          simp at hov2
        | some i =>
          rw [hid] at hov2
          have hov3 : some (t, i) = some p := hov2
          obtain rfl : (t, i) = p := Option.some_injective _ hov3
          exact hc
      · rw [if_neg hc] at hov2
        cases hov2

theorem index_course_ok (f : String → Vec) (videos : List (Option VideoEntry)) (n : Nat)
    (c : Collection) (h : index_course f (Except.ok videos) = Except.ok (n, some c)) :
    c.documents = (retainedVids videos).map Prod.fst ∧
    c.embeddings = encode f c.documents ∧
    c.metadatas = (retainedVids videos).map (fun p => Meta.mk p.2 p.1) ∧
    c.ids = (retainedVids videos).map Prod.snd ∧
    n = c.documents.length := by
  have hunf : index_course f (Except.ok videos) = (indexLoop videos).map
      (fun r => if r.1.isEmpty then ((0 : Nat), (none : Option Collection))
        else (r.1.length, some ⟨r.1, encode f r.1, r.2.1, r.2.2⟩)) := rfl
  rw [hunf] at h
  cases hvs : indexLoop videos with
  | error e =>
    rw [hvs] at h
    cases h
  | ok r =>
    rw [hvs] at h
    simp only [Except.map] at h
    have h2 := Except.ok.inj h
    by_cases he : r.1.isEmpty
    · rw [if_pos he] at h2
      have hfalse : (none : Option Collection) = some c := congrArg Prod.snd h2
      cases hfalse
    · rw [if_neg he] at h2
      have hn : r.1.length = n := congrArg Prod.fst h2
      have hc : some (⟨r.1, encode f r.1, r.2.1, r.2.2⟩ : Collection) = some c :=
        congrArg Prod.snd h2
      have hcc : (⟨r.1, encode f r.1, r.2.1, r.2.2⟩ : Collection) = c := Option.some.inj hc
      obtain ⟨h1, h2', h3⟩ := indexLoop_ok videos r hvs
      rw [← hcc]
      exact ⟨h1, rfl, h2', h3, hn.symm⟩

theorem getD_map_of_lt {α β : Type} (g : α → β) (d : β) :
    ∀ (l : List α) (i : Nat) (h : i < l.length), (l.map g).getD i d = g (l.get ⟨i, h⟩)
  | _ :: _, 0, _ => rfl
  | _ :: as, i + 1, h => getD_map_of_lt g d as i (Nat.lt_of_succ_lt_succ h)

theorem getD_eq_get_of_lt {α : Type} (d : α) :
    ∀ (l : List α) (i : Nat) (h : i < l.length), l.getD i d = l.get ⟨i, h⟩
  | _ :: _, 0, _ => rfl
  | _ :: as, i + 1, h => getD_eq_get_of_lt d as i (Nat.lt_of_succ_lt_succ h)

/-! ### The claims -/

/-- C1 (counterexample): the claim says that an item is included in the final
result only if its similarity score exceeds the fixed score floor (0.4 on the
cosine-style `[-1,1]` scale of the spec, i.e. `2/5`), and that a top score
below the floor yields an empty match list.  On a one-video course whose
stored vector `[0, 1]` is orthogonal to the query vector `[1, 0]` — top
cosine-style score `0 < 2/5` — the search block still returns that video:
no floor exists anywhere in the code path (src/app.py:147-166). -/
theorem C1_counterexample :
    ((dotScore [1, 0] [0, 1] : ℤ) : ℚ) < 2/5 ∧
    searchResults (fun _ => [1, 0])
      ⟨["Intro to Cooking"], [[0, 1]], [⟨"v1", "Intro to Cooking"⟩], ["v1"]⟩
      "gradient descent" = [("Intro to Cooking", "v1")] := by
  constructor
  · norm_num [dotScore]
  · decide

/-- C1 (amended): the query/search block applies no score floor at all: for
every embedder, loaded collection and query, it returns exactly
`min 10 n` items (`n` the number of stored vectors), regardless of how low
every similarity score is. -/
theorem C1_no_score_floor (f : String → Vec) (c : Collection) (q : String) :
    (searchResults f c q).length = min 10 c.embeddings.length :=
  searchResults_length f c q

/-- C2: when `index_course` succeeds with a populated collection, the stored
vectors are the single batch `encode f documents` (one embedding call on the
ordered retained titles, src/app.py:106), and position `i` of every parallel
list comes from the same retained source video: `documents`, `metadatas`,
`ids` and `embeddings` are all maps over the same ordered list
`retainedVids videos`. -/
theorem C2_batch_embedding_positional (f : String → Vec) (videos : List (Option VideoEntry))
    (n : Nat) (c : Collection)
    (h : index_course f (Except.ok videos) = Except.ok (n, some c)) :
    c.embeddings = encode f c.documents ∧
    c.documents = (retainedVids videos).map Prod.fst ∧
    c.metadatas = (retainedVids videos).map (fun p => Meta.mk p.2 p.1) ∧
    c.ids = (retainedVids videos).map Prod.snd ∧
    ∀ (i : Nat) (hR : i < (retainedVids videos).length),
      c.embeddings.getD i [] = f ((retainedVids videos).get ⟨i, hR⟩).1 ∧
      c.metadatas.getD i default =
        ⟨((retainedVids videos).get ⟨i, hR⟩).2, ((retainedVids videos).get ⟨i, hR⟩).1⟩ ∧
      c.ids.getD i "" = ((retainedVids videos).get ⟨i, hR⟩).2 := by
  obtain ⟨hd, he, hm, hi, _⟩ := index_course_ok f videos n c h
  have hE : c.embeddings = (retainedVids videos).map (fun p => f p.1) := by
    rw [he, hd]
    simp only [encode, List.map_map]
    rfl
  refine ⟨he, hd, hm, hi, ?_⟩
  intro i hR
  rw [hE, hm, hi]
  exact ⟨getD_map_of_lt _ _ _ i hR, getD_map_of_lt _ _ _ i hR, getD_map_of_lt _ _ _ i hR⟩

/-- C2 (witness): the theorem instantiated on a concrete two-video playlist
and the embedder mapping a title to the singleton vector of its length. -/
theorem C2_witness :
    index_course (fun s => [(s.length : ℤ)])
        (Except.ok [some ⟨some "Alpha", some "idA"⟩, some ⟨some "Beta", some "idB"⟩]) =
      Except.ok (2, some ⟨["Alpha", "Beta"], [[5], [4]],
        [⟨"idA", "Alpha"⟩, ⟨"idB", "Beta"⟩], ["idA", "idB"]⟩) ∧
    (⟨["Alpha", "Beta"], [[5], [4]], [⟨"idA", "Alpha"⟩, ⟨"idB", "Beta"⟩],
      ["idA", "idB"]⟩ : Collection).embeddings =
      encode (fun s => [(s.length : ℤ)])
        (⟨["Alpha", "Beta"], [[5], [4]], [⟨"idA", "Alpha"⟩, ⟨"idB", "Beta"⟩],
          ["idA", "idB"]⟩ : Collection).documents :=
  ⟨rfl, (C2_batch_embedding_positional (fun s => [(s.length : ℤ)])
    [some ⟨some "Alpha", some "idA"⟩, some ⟨some "Beta", some "idB"⟩] 2 _ rfl).1⟩

/-- C3 (counterexample): the claim says an entry lacking a title is dropped
and never present in the filtered catalog.  But `entry.get('title', 'Unknown')`
(src/app.py:70) substitutes the default title `"Unknown"` for an absent title
key, so an entry with no title and a truthy url is retained under the key
`"Unknown"`. -/
theorem C3_counterexample :
    ({ title := none, url := some "https://pl" } : RawEntry).title = none ∧
    fetch_course_catalog (Except.ok [{ title := none, url := some "https://pl" }]) =
      [("Unknown", "https://pl")] := by
  constructor
  · rfl
  · decide

/-- C3 (amended): every binding of the filtered catalog has a truthy (nonempty)
title, a truthy url, and a title containing no denylisted substring; an entry
whose title key is absent is not dropped but given the default title
`"Unknown"` (see the counterexample), while an entry whose title value is
falsy, whose url is missing/falsy, or whose lower-cased title contains a
denylist term contributes nothing. -/
theorem C3_filtered_catalog_truthy_nonjunk (upstream : Except Unit (List RawEntry))
    (p : String × String) (hp : p ∈ fetch_course_catalog upstream) :
    truthy p.1 = true ∧ truthy p.2 = true ∧ containsJunk p.1 = false := by
  cases upstream with
  | error e => cases hp
  | ok raw =>
    have hunf : fetch_course_catalog (Except.ok raw) = catalogFilter (raw.take 500) := rfl
    rw [hunf] at hp
    exact mem_catalogFilter_prop _ p hp

/-- C3 (witness): the amended theorem applied to a concrete catalog and
binding. -/
theorem C3_witness :
    ("Algebra", "u") ∈ fetch_course_catalog (Except.ok [⟨some "Algebra", some "u"⟩]) ∧
    (truthy "Algebra" = true ∧ truthy "u" = true ∧ containsJunk "Algebra" = false) :=
  ⟨by decide, C3_filtered_catalog_truthy_nonjunk
    (Except.ok [⟨some "Algebra", some "u"⟩]) ("Algebra", "u") (by decide)⟩

/-- C4: when the indexer loop succeeds, no produced record has an empty,
`"[Private video]"` or `"[Deleted video]"` title, and the retained titles
`documents` are exactly the retained source titles in input order (a sublist
of the input's title sequence, so the order is stable). -/
theorem C4_exclusion_stable_order (videos : List (Option VideoEntry))
    (r : List String × List Meta × List String) (h : indexLoop videos = Except.ok r) :
    (∀ m ∈ r.2.1, m.title ≠ "" ∧ m.title ≠ "[Private video]" ∧
      m.title ≠ "[Deleted video]") ∧
    r.1 = (retainedVids videos).map Prod.fst ∧
    r.1.Sublist (videos.filterMap (fun ov => ov.bind VideoEntry.title)) := by
  obtain ⟨h1, h2, _⟩ := indexLoop_ok videos r h
  refine ⟨?_, h1, ?_⟩
  · intro m hm
    rw [h2] at hm
    rcases List.mem_map.mp hm with ⟨p, hp, rfl⟩
    have hprop := mem_retainedVids_prop videos p hp
    have hbad := hprop.2
    simp only [badTitles, List.mem_cons, List.mem_singleton, not_or] at hbad
    exact ⟨hprop.1, hbad.1, hbad.2.1⟩
  · rw [h1]
    exact retained_titles_sublist videos

/-- C4 (witness): the theorem instantiated on a playlist with one private
video and one normal video. -/
theorem C4_witness :
    indexLoop [some ⟨some "[Private video]", some "x"⟩, some ⟨some "Lec", some "i"⟩] =
      Except.ok (["Lec"], [⟨"i", "Lec"⟩], ["i"]) ∧
    (∀ m ∈ ([⟨"i", "Lec"⟩] : List Meta), m.title ≠ "" ∧ m.title ≠ "[Private video]" ∧
      m.title ≠ "[Deleted video]") :=
  ⟨rfl, (C4_exclusion_stable_order
    [some ⟨some "[Private video]", some "x"⟩, some ⟨some "Lec", some "i"⟩]
    (["Lec"], [⟨"i", "Lec"⟩], ["i"]) rfl).1⟩

/-- C5 (counterexample): the claim says every scrape failure — in the catalog
fetch or in the per-playlist video fetch — is recovered locally and never
propagated.  The catalog fetch does catch (src/app.py:59-63), but
`index_course` calls `extract_info` with no try/except (src/app.py:87-89),
so a failing playlist fetch propagates out of `index_course`. -/
theorem C5_counterexample :
    index_course (fun _ => ([1] : Vec)) (Except.error ()) = Except.error () := rfl

/-- C5 (amended): a catalog scrape failure is recovered locally as the empty
catalog, but a playlist scrape failure in `index_course` is not caught and
propagates to the caller. -/
theorem C5_catalog_recovers_index_propagates :
    fetch_course_catalog (Except.error ()) = [] ∧
    ∀ f : String → Vec, index_course f (Except.error ()) = Except.error () :=
  ⟨rfl, fun _ => rfl⟩

/-- C6 (counterexample): the claim says any two input sequences with the same
entries in different orders yield the same final mapping.  Two entries sharing
the title `"a"` with different urls are a permutation of each other in either
order, yet the catalogs differ: the dict write `clean_catalog[title] = url`
keeps the last url in input order. -/
theorem C6_counterexample :
    ([⟨some "a", some "u2"⟩, ⟨some "a", some "u1"⟩] : List RawEntry).Perm
      [⟨some "a", some "u1"⟩, ⟨some "a", some "u2"⟩] ∧
    fetch_course_catalog (Except.ok [⟨some "a", some "u1"⟩, ⟨some "a", some "u2"⟩]) ≠
      fetch_course_catalog (Except.ok [⟨some "a", some "u2"⟩, ⟨some "a", some "u1"⟩]) := by
  refine ⟨List.Perm.swap _ _ _, ?_⟩
  decide

/-- C6 (amended): the filtered catalog is always sorted ascending by title
(code-point lexicographic `strLe`), and permutation-invariance holds under the
additional hypothesis that the retained entries carry pairwise-distinct
titles — the hypothesis the counterexample shows is necessary. -/
theorem C6_sorted_and_perm_invariant :
    (∀ upstream, List.Sorted (fun a b => strLe a.1 b.1 = true) (fetch_course_catalog upstream)) ∧
    ∀ raw1 raw2 : List RawEntry, raw1.Perm raw2 →
      ((retainedPairs raw1).map Prod.fst).Nodup →
      catalogFilter raw1 = catalogFilter raw2 := by
  constructor
  · intro upstream
    cases upstream with
    | error e => exact List.sorted_nil
    | ok raw =>
      show List.Sorted (fun a b => strLe a.1 b.1 = true) (catalogFilter (raw.take 500))
      exact catalogFilter_sorted _
  · intro raw1 raw2 hperm hnd
    exact catalogFilter_perm_invariant raw1 raw2 hperm hnd

/-- C6 (witness): the amended theorem applied to two concrete permuted inputs
with distinct retained titles. -/
theorem C6_witness :
    ([⟨some "b", some "u2"⟩, ⟨some "a", some "u1"⟩] : List RawEntry).Perm
      [⟨some "a", some "u1"⟩, ⟨some "b", some "u2"⟩] ∧
    ((retainedPairs [⟨some "b", some "u2"⟩, ⟨some "a", some "u1"⟩]).map Prod.fst).Nodup ∧
    catalogFilter [⟨some "b", some "u2"⟩, ⟨some "a", some "u1"⟩] =
      catalogFilter [⟨some "a", some "u1"⟩, ⟨some "b", some "u2"⟩] :=
  ⟨List.Perm.swap _ _ _, by decide,
    C6_sorted_and_perm_invariant.2 _ _ (List.Perm.swap _ _ _) (by decide)⟩

/-- C8: when two or more retained raw catalog entries share a title, the
final catalog holds exactly one binding for that title, and a pair with that
title is in the catalog exactly when its url is the value of the last
assignment to the title in fetch (input) order — last write wins. -/
theorem C8_last_write_wins (raw : List RawEntry) (t : String)
    (h : 2 ≤ (retainedPairs raw).countP (fun p => p.1 == t)) :
    (catalogFilter raw).countP (fun p => p.1 == t) = 1 ∧
    ∀ u, ((t, u) ∈ catalogFilter raw ↔ lastAssign (retainedPairs raw) t = some u) := by
  have hiff : ∀ u, ((t, u) ∈ catalogFilter raw ↔
      lastAssign (retainedPairs raw) t = some u) := by
    intro u
    rw [(catalogFilter_perm_build raw).mem_iff]
    exact mem_buildCatalog_iff raw t u
  refine ⟨?_, hiff⟩
  have hpos : 0 < (retainedPairs raw).countP (fun p => p.1 == t) :=
    lt_of_lt_of_le (by norm_num) h
  rcases List.countP_pos.mp hpos with ⟨p, hp, hpt⟩
  obtain ⟨a, u'⟩ := p
  have ht' : a = t := by simpa using hpt
  subst ht'
  have hsome := lastAssign_isSome_of_mem _ _ _ hp
  obtain ⟨w, hw⟩ := Option.isSome_iff_exists.mp hsome
  have hmemc : (a, w) ∈ catalogFilter raw := (hiff w).mpr hw
  have hcnt : (catalogFilter raw).countP (fun p => p.1 == a) =
      ((catalogFilter raw).map Prod.fst).count a := by
    rw [List.count, List.countP_map]
    rfl
  have hle : ((catalogFilter raw).map Prod.fst).count a ≤ 1 :=
    List.nodup_iff_count_le_one.mp (catalogFilter_keys_nodup raw) a
  have hge : 0 < ((catalogFilter raw).map Prod.fst).count a := by
    rw [List.count_pos_iff_mem]
    exact List.mem_map_of_mem _ hmemc
  rw [hcnt]
  omega

/-- C8 (witness): the theorem applied to a fetch with two retained entries
titled `"a"`; the binding kept is the later url `"u2"`. -/
theorem C8_witness :
    2 ≤ (retainedPairs [⟨some "a", some "u1"⟩, ⟨some "b", some "ub"⟩,
      ⟨some "a", some "u2"⟩]).countP (fun p => p.1 == "a") ∧
    (catalogFilter [⟨some "a", some "u1"⟩, ⟨some "b", some "ub"⟩,
      ⟨some "a", some "u2"⟩]).countP (fun p => p.1 == "a") = 1 ∧
    ∀ u, (("a", u) ∈ catalogFilter [⟨some "a", some "u1"⟩, ⟨some "b", some "ub"⟩,
      ⟨some "a", some "u2"⟩] ↔
      lastAssign (retainedPairs [⟨some "a", some "u1"⟩, ⟨some "b", some "ub"⟩,
        ⟨some "a", some "u2"⟩]) "a" = some u) :=
  ⟨by decide, C8_last_write_wins [⟨some "a", some "u1"⟩, ⟨some "b", some "ub"⟩,
    ⟨some "a", some "u2"⟩] "a" (by decide)⟩

/-- C9: `index_course` reads `vid['id']` for every entry with a truthy title
(src/app.py:98, before the private/deleted check), so a retained entry —
truthy title, not private/deleted — without an `'id'` key makes the call
raise a `KeyError` instead of returning a result. -/
theorem C9_missing_id_keyerror (f : String → Vec) (videos : List (Option VideoEntry))
    (h : ∃ v, (some v) ∈ videos ∧ ∃ t, v.title = some t ∧ t ≠ "" ∧ t ∉ badTitles ∧
      v.id = none) :
    index_course f (Except.ok videos) = Except.error () := by
  have hunf : index_course f (Except.ok videos) = (indexLoop videos).map
      (fun r => if r.1.isEmpty then ((0 : Nat), (none : Option Collection))
        else (r.1.length, some ⟨r.1, encode f r.1, r.2.1, r.2.2⟩)) := rfl
  rw [hunf, indexLoop_error videos h]
  rfl

/-- C9 (witness): a playlist whose single entry has a usable title but no
`'id'` key makes `index_course` raise. -/
theorem C9_witness :
    index_course (fun _ => ([1] : Vec)) (Except.ok [some ⟨some "Lecture 1", none⟩]) =
      Except.error () :=
  C9_missing_id_keyerror (fun _ => ([1] : Vec)) [some ⟨some "Lecture 1", none⟩]
    ⟨⟨some "Lecture 1", none⟩, by decide, "Lecture 1", rfl, by decide, by decide, rfl⟩

/-- C10: `fetch_course_catalog` passes `'playlistend': 500` to the scraper
(src/app.py:53), so at most the first 500 scraped playlist entries are ever
considered for the filtered catalog: the catalog of a raw listing equals the
catalog of its first 500 entries, and the considered listing never exceeds
500 entries. -/
theorem C10_playlistend_cap :
    catalog_ydl_opts.playlistend = some 500 ∧
    ∀ raw : List RawEntry,
      extract_info catalog_ydl_opts (Except.ok raw) = Except.ok (raw.take 500) ∧
      fetch_course_catalog (Except.ok raw) = catalogFilter (raw.take 500) ∧
      (raw.take 500).length ≤ 500 := by
  refine ⟨rfl, fun raw => ⟨rfl, rfl, ?_⟩⟩
  rw [List.length_take]
  exact min_le_left _ _

/-- C7 (counterexample): the claim bounds the result length by
`min(K, number of videos with score above the floor)` (floor 0.4 = 2/5 on the
cosine-style scale; on integer scores, `score > 2/5` is `5·score > 2`).  On a
two-video course where both stored vectors score `0` against the query — zero
videos above the floor — the search block still returns both videos: length
`2 > min(10, 0)`. -/
theorem C7_counterexample :
    ((⟨["A", "B"], [[0, 2], [0, 3]], [⟨"vA", "A"⟩, ⟨"vB", "B"⟩], ["vA", "vB"]⟩ :
      Collection).embeddings.countP (fun v => 2 < 5 * dotScore [1, 0] v)) = 0 ∧
    (searchResults (fun _ => [1, 0])
      ⟨["A", "B"], [[0, 2], [0, 3]], [⟨"vA", "A"⟩, ⟨"vB", "B"⟩], ["vA", "vB"]⟩
      "query").length = 2 := by
  constructor
  · decide
  · decide

/-- C7 (amended): there is no score floor, but for a course produced by
`index_course` whose video ids are pairwise distinct (ChromaDB rejects
duplicate ids at `add` time), the result list never shows the same video id
twice, and its length is at most `min(10, number of indexed videos)`. -/
theorem C7_no_duplicates_and_cap (f : String → Vec) (videos : List (Option VideoEntry))
    (q : String) (n : Nat) (c : Collection)
    (h : index_course f (Except.ok videos) = Except.ok (n, some c))
    (hids : c.ids.Nodup) :
    ((searchResults f c q).map Prod.snd).Nodup ∧
    (searchResults f c q).length ≤ min 10 c.embeddings.length := by
  refine ⟨?_, le_of_eq (searchResults_length f c q)⟩
  obtain ⟨hd, he, hm, hi, _⟩ := index_course_ok f videos n c h
  have hlen : c.embeddings.length = (retainedVids videos).length := by
    rw [he, hd]
    simp [encode]
  have hmap : (searchResults f c q).map Prod.snd =
      (collectionQuery c (f q) 10).map
        (fun p => (c.metadatas.getD p.1 default).video_id) := by
    simp only [searchResults, List.map_map]
    rfl
  rw [hmap]
  have hids' : ((retainedVids videos).map Prod.snd).Nodup := by
    rw [← hi]
    exact hids
  have hlt : ∀ p ∈ collectionQuery c (f q) 10, p.1 < (retainedVids videos).length :=
    fun p hp => hlen ▸ collectionQuery_fst_lt c (f q) 10 p hp
  have key : ∀ (j : Nat), j < (retainedVids videos).length →
      (c.metadatas.getD j default).video_id =
      ((retainedVids videos).map Prod.snd).getD j "" := by
    intro j hj
    rw [hm, getD_map_of_lt _ _ _ j hj, getD_map_of_lt _ _ _ j hj]
  have hpw2 : List.Pairwise (fun a b : Nat × ℤ =>
      (c.metadatas.getD a.1 default).video_id ≠ (c.metadatas.getD b.1 default).video_id)
      (collectionQuery c (f q) 10) := by
    refine (collectionQuery_fst_pairwise c (f q) 10).imp_of_mem ?_
    intro a b ha hb hne heq
    apply hne
    have hla := hlt a ha
    have hlb := hlt b hb
    rw [key a.1 hla, key b.1 hlb] at heq
    have hla' : a.1 < ((retainedVids videos).map Prod.snd).length := by simpa using hla
    have hlb' : b.1 < ((retainedVids videos).map Prod.snd).length := by simpa using hlb
    rw [getD_eq_get_of_lt _ _ _ hla', getD_eq_get_of_lt _ _ _ hlb'] at heq
    have hfin := (hids'.get_inj_iff).mp heq
    exact congrArg Fin.val hfin
  exact (List.pairwise_map).mpr hpw2

/-- C7 (witness): the amended theorem on a concrete two-video course with
distinct ids and a constant embedder. -/
theorem C7_witness :
    index_course (fun _ => ([1] : Vec))
        (Except.ok [some ⟨some "Alpha", some "i1"⟩, some ⟨some "Beta", some "i2"⟩]) =
      Except.ok (2, some ⟨["Alpha", "Beta"], [[1], [1]],
        [⟨"i1", "Alpha"⟩, ⟨"i2", "Beta"⟩], ["i1", "i2"]⟩) ∧
    (⟨["Alpha", "Beta"], [[1], [1]], [⟨"i1", "Alpha"⟩, ⟨"i2", "Beta"⟩],
      ["i1", "i2"]⟩ : Collection).ids.Nodup ∧
    ((searchResults (fun _ => ([1] : Vec)) ⟨["Alpha", "Beta"], [[1], [1]],
      [⟨"i1", "Alpha"⟩, ⟨"i2", "Beta"⟩], ["i1", "i2"]⟩ "q").map Prod.snd).Nodup :=
  ⟨rfl, by decide, (C7_no_duplicates_and_cap (fun _ => ([1] : Vec))
    [some ⟨some "Alpha", some "i1"⟩, some ⟨some "Beta", some "i2"⟩] "q" 2
    ⟨["Alpha", "Beta"], [[1], [1]], [⟨"i1", "Alpha"⟩, ⟨"i2", "Beta"⟩], ["i1", "i2"]⟩
    rfl (by decide)).1⟩
